import Mathlib

/-!
Verification development for the mcp-data-explorer repository.

The repository consists of three TypeScript programs: a postMessage host
relay (`handleMessage`), an Express server exposing the query engine
(`applyFilters`, `sortData`, `aggregateData`, and the five tool
handlers), and an iframe UI.  This file gives a shallow embedding of the
relay and of the server-side query engine, and proves the specification
claims about them.

Modelling conventions:
- JavaScript runtime values are modelled by the inductive `JVal`
  (numbers as rationals, plus strings, booleans, null, arrays and
  objects); `undefined` is `Option.none` at use sites.
- Fallible code (expressions that can raise a TypeError) returns
  `Except String _`.
- `Array.prototype.sort` is required by ES2019 to be stable; it is
  modelled by the stable insertion sort `insSort`.
- `String.prototype.localeCompare` performs locale/ICU dependent
  collation; it is modelled as code-point lexicographic comparison,
  which agrees with it on equality of equal strings.
- The numeric fragment of `ToNumber` on strings is modelled for plain
  decimal literals (no hexadecimal, exponent or Infinity forms).
-/

/-- A JSON-like JavaScript value. JavaScript numbers are modelled as
rationals; `undefined` is represented as `Option.none` wherever a value
can be absent. -/
inductive JVal where
  | num (q : ℚ)
  | str (s : String)
  | bool (b : Bool)
  | null
  | arr (xs : List JVal)
  | obj (fields : List (String × JVal))

/-- Property lookup on an object field list; later fields shadow earlier
ones, as in JSON parsing. Returns `none` for a missing property
(JavaScript `undefined`). -/
def jlookup (fs : List (String × JVal)) (k : String) : Option JVal :=
  fs.foldl (fun acc p => if p.1 = k then some p.2 else acc) none

/-- JavaScript property access `v[k]`: defined only for object values;
any other receiver yields `undefined` for the property names this
program reads. -/
def jget (v : JVal) (k : String) : Option JVal :=
  match v with
  | .obj fs => jlookup fs k
  | _ => none

/-- A record of a dataset: a JSON object row, accessed by field name. -/
abbrev Record := List (String × JVal)

/-- Field access `row[field]` on a record. -/
def rget (r : Record) (k : String) : Option JVal := jlookup r k

/-- JavaScript truthiness of a value. -/
def truthy : JVal → Bool
  | .num q => q != 0
  | .str s => s != ""
  | .bool b => b
  | .null => false
  | .arr _ => true
  | .obj _ => true

/-- JavaScript strict equality `===` on possibly-undefined values.
Arrays and objects compare by reference in JavaScript; the values this
program compares with `===` come from independently parsed JSON, so two
composite values are never the same reference and the comparison is
`false`. -/
def strictEq : Option JVal → Option JVal → Bool
  | none, none => true
  | some (.num a), some (.num b) => a == b
  | some (.str a), some (.str b) => a == b
  | some (.bool a), some (.bool b) => a == b
  | some .null, some .null => true
  | _, _ => false

/-- Decimal digits of a character list interpreted as a natural number;
the empty list counts as zero (validity is checked separately). -/
def natOfDigits (cs : List Char) : ℕ :=
  cs.foldl (fun n c => 10 * n + (c.toNat - 48)) 0

/-- Parse of an unsigned decimal literal (integer part, optional dot,
optional fraction part); `none` models NaN. -/
def parseUnsigned (cs : List Char) : Option ℚ :=
  match cs.splitOn '.' with
  | [ip] =>
      if ip.isEmpty then none
      else if ip.all Char.isDigit then some (natOfDigits ip : ℚ) else none
  | [ip, fp] =>
      if ip.isEmpty && fp.isEmpty then none
      else if ip.all Char.isDigit && fp.all Char.isDigit then
        some ((natOfDigits ip : ℚ) + (natOfDigits fp : ℚ) / (10 : ℚ) ^ fp.length)
      else none
  | _ => none

/-- Model of JavaScript `Number(string)` restricted to plain decimal
literals: surrounding whitespace is trimmed, the empty string is `0`,
an optional sign precedes the digits; `none` models NaN. -/
def parseNum (s : String) : Option ℚ :=
  let t := s.trim
  if t.isEmpty then some 0
  else
    match t.data with
    | '-' :: cs => (parseUnsigned cs).map Neg.neg
    | '+' :: cs => parseUnsigned cs
    | cs => parseUnsigned cs

/-- String form of a number. JavaScript prints the shortest decimal
representation of a double; the model prints the integer form for
integral rationals and an exact fraction otherwise.  Like the
JavaScript form it is injective on numbers. -/
def numToString (q : ℚ) : String :=
  if q.den = 1 then toString q.num
  else toString q.num ++ "/" ++ toString q.den

mutual

/-- Model of JavaScript `String(v)` on a defined value.  Arrays
stringify as their elements joined with commas; plain objects as
"[object Object]". -/
def jvalToString : JVal → String
  | .num q => numToString q
  | .str s => s
  | .bool b => Bool.rec "false" "true" b
  | .null => "null"
  | .obj _ => "[object Object]"
  | .arr xs => joinParts xs

/-- Join of array elements with commas, as in `Array.prototype.join`;
null elements contribute the empty string. -/
def joinParts : List JVal → String
  | [] => ""
  | [JVal.null] => ""
  | [x] => jvalToString x
  | JVal.null :: x :: xs => "," ++ joinParts (x :: xs)
  | x :: y :: xs => jvalToString x ++ "," ++ joinParts (y :: xs)

end

/-- Model of JavaScript `String(v)` including `undefined`. -/
def jsToString : Option JVal → String
  | none => "undefined"
  | some v => jvalToString v

/-- Primitive values, the result of `ToPrimitive`. -/
inductive JPrim where
  | undef
  | null
  | bool (b : Bool)
  | num (q : ℚ)
  | str (s : String)

/-- ToPrimitive on a possibly-undefined value: arrays convert to their
join string, plain objects to "[object Object]". -/
def toPrim : Option JVal → JPrim
  | none => .undef
  | some (.num q) => .num q
  | some (.str s) => .str s
  | some (.bool b) => .bool b
  | some .null => .null
  | some (.arr xs) => .str (joinParts xs)
  | some (.obj _) => .str "[object Object]"

/-- ToNumber on a primitive; `none` models NaN. -/
def primToNum : JPrim → Option ℚ
  | .undef => none
  | .null => some 0
  | .bool b => some (if b then 1 else 0)
  | .num q => some q
  | .str s => parseNum s

/-- JavaScript numeric coercion `Number(v)`; `none` models NaN. -/
def toNumber (v : Option JVal) : Option ℚ := primToNum (toPrim v)

/-- Abstract relational comparison `x < y` of the ES specification:
if both primitives are strings they compare lexicographically, otherwise
both are coerced to numbers and `none` (undefined) results when either
is NaN. -/
def jsRel (x y : Option JVal) : Option Bool :=
  match toPrim x, toPrim y with
  | .str s, .str t => some (decide (s < t))
  | px, py =>
      match primToNum px, primToNum py with
      | some a, some b => some (decide (a < b))
      | _, _ => none

/-- Contiguous-segment membership on character lists, used to model
`String.prototype.includes`. -/
def hasSegment (needle : List Char) : List Char → Bool
  | [] => needle.isEmpty
  | c :: rest => needle.isPrefixOf (c :: rest) || hasSegment needle rest

/-- Model of `hay.includes(needle)` on strings. -/
def strHasSegment (hay needle : String) : Bool :=
  needle.data.isEmpty || hasSegment needle.data hay.data

section StableSort

variable {α : Type _}

/-- Ordered insertion: `x` is placed before the first element `y` with
`le x y`.  Together with `insSort` this is the model of the stable
`Array.prototype.sort`. -/
def insOrd (le : α → α → Bool) (x : α) : List α → List α
  | [] => [x]
  | y :: ys => if le x y then x :: y :: ys else y :: insOrd le x ys

/-- Stable insertion sort, the model of `Array.prototype.sort` (which
ES2019 requires to be stable). -/
def insSort (le : α → α → Bool) (l : List α) : List α :=
  l.foldr (insOrd le) []

theorem insOrd_perm (le : α → α → Bool) (x : α) (l : List α) :
    List.Perm (insOrd le x l) (x :: l) := by
  induction l with
  | nil => exact List.Perm.refl _
  | cons y ys ih =>
      by_cases h : le x y = true
      · simp [insOrd, h]
      · simp only [insOrd, h, if_false, Bool.false_eq_true]
        exact (ih.cons y).trans (List.Perm.swap x y ys)

theorem insSort_perm (le : α → α → Bool) (l : List α) :
    List.Perm (insSort le l) l := by
  induction l with
  | nil => exact List.Perm.refl _
  | cons x xs ih => exact (insOrd_perm le x (insSort le xs)).trans (ih.cons x)

theorem mem_insOrd (le : α → α → Bool) (x a : α) (l : List α) :
    a ∈ insOrd le x l ↔ a = x ∨ a ∈ l :=
  ((insOrd_perm le x l).mem_iff).trans (by simp)

theorem filter_insOrd_of_neg (le : α → α → Bool) (p : α → Bool) (x : α)
    (l : List α) (hx : p x = false) :
    (insOrd le x l).filter p = l.filter p := by
  induction l with
  | nil => simp [insOrd, List.filter, hx]
  | cons y ys ih =>
      by_cases h : le x y = true
      · simp [insOrd, h, List.filter, hx]
      · simp only [insOrd, h, if_neg, Bool.not_eq_true]
        by_cases hy : p y = true <;> simp [List.filter, hy, ih]

theorem filter_insOrd_of_pos (le : α → α → Bool) (p : α → Bool) (x : α)
    (l : List α) (hx : p x = true)
    (hle : ∀ w, p w = true → le x w = true) :
    (insOrd le x l).filter p = x :: l.filter p := by
  induction l with
  | nil => simp [insOrd, List.filter, hx]
  | cons y ys ih =>
      by_cases h : le x y = true
      · simp [insOrd, h, List.filter, hx]
      · have hy : p y = false := by
          by_contra hc
          exact h (hle y (eq_true_of_ne_false hc))
        simp [insOrd, h, List.filter, hy, ih]

/-- Stability of the sort on a tied class: if all elements satisfying
`p` are pairwise tied under `le`, the `p`-subsequence of the sorted list
equals the `p`-subsequence of the input, elementwise and in order. -/
theorem filter_insSort (le : α → α → Bool) (p : α → Bool) (l : List α)
    (hp : ∀ x y, p x = true → p y = true → le x y = true) :
    (insSort le l).filter p = l.filter p := by
  induction l with
  | nil => rfl
  | cons x xs ih =>
      by_cases hx : p x = true
      · have := filter_insOrd_of_pos le p x (insSort le xs) hx
          (fun w hw => hp x w hx hw)
        simp only [insSort, List.foldr] at *
        rw [this, ih, List.filter_cons_of_pos hx]
      · have hx' : p x = false := Bool.eq_false_iff.mpr hx
        have := filter_insOrd_of_neg le p x (insSort le xs) hx'
        simp only [insSort, List.foldr] at *
        rw [this, ih, List.filter_cons_of_neg (by simp [hx'])]

theorem pairwise_insOrd (le : α → α → Bool)
    (htrans : ∀ a b c, le a b = true → le b c = true → le a c = true)
    (htotal : ∀ a b, le a b = true ∨ le b a = true)
    (x : α) (l : List α) (hl : l.Pairwise (fun a b => le a b = true)) :
    (insOrd le x l).Pairwise (fun a b => le a b = true) := by
  induction l with
  | nil => simp [insOrd]
  | cons y ys ih =>
      rcases List.pairwise_cons.mp hl with ⟨hy, hys⟩
      by_cases h : le x y = true
      · simp only [insOrd, h, if_pos]
        refine List.pairwise_cons.mpr ⟨?_, hl⟩
        intro a ha
        rcases List.mem_cons.mp ha with rfl | ha
        · exact h
        · exact htrans x y a h (hy a ha)
      · have hyx : le y x = true := (htotal x y).resolve_left h
        simp only [insOrd, h, if_neg, Bool.not_eq_true]
        refine List.pairwise_cons.mpr ⟨?_, ih hys⟩
        intro a ha
        rcases (mem_insOrd le x a ys).mp ha with rfl | ha
        · exact hyx
        · exact hy a ha

theorem pairwise_insSort (le : α → α → Bool)
    (htrans : ∀ a b c, le a b = true → le b c = true → le a c = true)
    (htotal : ∀ a b, le a b = true ∨ le b a = true) (l : List α) :
    (insSort le l).Pairwise (fun a b => le a b = true) := by
  induction l with
  | nil => simp [insSort]
  | cons x xs ih => exact pairwise_insOrd le htrans htotal x _ ih

theorem mem_insSort (le : α → α → Bool) (a : α) (l : List α) :
    a ∈ insSort le l ↔ a ∈ l :=
  (insSort_perm le l).mem_iff

theorem length_insSort (le : α → α → Bool) (l : List α) :
    (insSort le l).length = l.length :=
  (insSort_perm le l).length_eq

end StableSort

/-- A filter from a query request body (the `Filter` interface of the
source; named `QFilter` here because `Filter` is taken by Mathlib).
The operator is kept as a raw string because the dispatch in
`applyFilters` switches on it and has a permissive default arm. -/
structure QFilter where
  field : String
  operator : String
  value : JVal

/-- Evaluation of one filter against one row, translated from the
switch in `applyFilters`.  The `in` arm calls `.includes` on the filter
value: arrays test membership, strings test substring containment, and
any other value has no `includes` method, raising a TypeError. -/
def matchesFilter (row : Record) (f : QFilter) : Except String Bool :=
  let value := rget row f.field
  if f.operator = "eq" then .ok (strictEq value (some f.value))
  else if f.operator = "ne" then .ok (!strictEq value (some f.value))
  else if f.operator = "gt" then .ok ((jsRel (some f.value) value).getD false)
  else if f.operator = "gte" then
    .ok (match jsRel value (some f.value) with | none => false | some b => !b)
  else if f.operator = "lt" then .ok ((jsRel value (some f.value)).getD false)
  else if f.operator = "lte" then
    .ok (match jsRel (some f.value) value with | none => false | some b => !b)
  else if f.operator = "contains" then
    .ok (strHasSegment (jsToString value).toLower (jvalToString f.value).toLower)
  else if f.operator = "in" then
    match f.value with
    | .arr xs => .ok (xs.any (fun e => strictEq value (some e)))
    | .str s => .ok (strHasSegment s (jsToString value))
    | _ => .error "TypeError: filter.value.includes is not a function"
  else .ok true

/-- Conjunction of all filters over one row with the short-circuit
evaluation of `Array.prototype.every`. -/
def rowMatches (row : Record) : List QFilter → Except String Bool
  | [] => .ok true
  | f :: rest =>
      match matchesFilter row f with
      | .error e => .error e
      | .ok false => .ok false
      | .ok true => rowMatches row rest

/-- The `applyFilters` function of the server: keeps the rows on which
every filter evaluates to true, propagating a raised TypeError. -/
def applyFilters (data : List Record) (filters : List QFilter) :
    Except String (List Record) :=
  match data with
  | [] => .ok []
  | r :: rest =>
      match rowMatches r filters with
      | .error e => .error e
      | .ok true => (applyFilters rest filters).map (r :: ·)
      | .ok false => applyFilters rest filters

/-- A sort specification.  The direction is kept as a raw string: the
code treats any direction other than "asc" as descending. -/
structure SortSpec where
  field : String
  direction : String

/-- Model of `String.prototype.localeCompare`: the actual collation is
locale dependent; the model compares code points, which agrees with it
in returning zero exactly on equal strings. -/
def localeCompare (s t : String) : Int :=
  if s < t then -1 else if t < s then 1 else 0

/-- The comparator built inside `sortData`: strictly equal values
compare as zero, two strings compare with `localeCompare`, anything
else with the JavaScript `<` operator; a non-"asc" direction negates
the comparison. -/
def sortCmp (sp : SortSpec) (a b : Record) : Int :=
  let aVal := rget a sp.field
  let bVal := rget b sp.field
  if strictEq aVal bVal then 0
  else
    let comparison : Int :=
      match aVal, bVal with
      | some (.str s), some (.str t) => localeCompare s t
      | _, _ => if (jsRel aVal bVal).getD false then -1 else 1
    if sp.direction = "asc" then comparison else -comparison

/-- The ordering predicate induced by `sortCmp` for the stable sort. -/
def sortLe (sp : SortSpec) (a b : Record) : Bool :=
  decide (sortCmp sp a b ≤ 0)

/-- The `sortData` function of the server: `[...data].sort(comparator)`
on a copy of the records, modelled by the stable sort. -/
def sortData (data : List Record) (sp : SortSpec) : List Record :=
  insSort (sortLe sp) data

/-- Index clamping of `Array.prototype.slice`: negative indices count
from the end of the array, and indices are clamped into `[0, len]`. -/
def jsClamp (len : ℕ) (x : ℤ) : ℕ :=
  if x < 0 then ((len : ℤ) + x).toNat else min x.toNat len

/-- Model of `data.slice(start, stop)` with the index semantics of the
ES specification. -/
def jsSlice {α : Type _} (l : List α) (start stop : ℤ) : List α :=
  (l.take (jsClamp l.length stop)).drop (jsClamp l.length start)

/-- One row of an aggregation result. -/
structure AggEntry where
  group : String
  value : ℚ

/-- The group key of a row: `String(row[groupBy])`. -/
def keyOf (row : Record) (groupBy : String) : String :=
  jsToString (rget row groupBy)

/-- The metric contribution of a row: `Number(row[metric]) || 0`, so a
NaN coercion (absent or non-numeric value) becomes zero. -/
def metricVal (row : Record) (metric : String) : ℚ :=
  (toNumber (rget row metric)).getD 0

/-- Push of one metric value onto its group in the insertion-ordered
group list, creating the group at the end on first encounter.  This is
the `Map`-building loop of `aggregateData`; JavaScript `Map` preserves
insertion order. -/
def pushGroup : List (String × List ℚ) → String → ℚ → List (String × List ℚ)
  | [], k, v => [(k, [v])]
  | (k', vs) :: rest, k, v =>
      if k' = k then (k', vs ++ [v]) :: rest
      else (k', vs) :: pushGroup rest k v

/-- The grouping pass of `aggregateData` over all rows. -/
def buildGroups (data : List Record) (groupBy metric : String) :
    List (String × List ℚ) :=
  data.foldl (fun gs row => pushGroup gs (keyOf row groupBy) (metricVal row metric)) []

/-- Minimum of a value list; `Math.min()` of an empty list is Infinity,
which is outside the rational model, but every group holds at least one
value so the empty case is unreachable. -/
def minList : List ℚ → ℚ
  | [] => 0
  | x :: xs => xs.foldl min x

/-- Maximum of a value list; see `minList` for the empty case. -/
def maxList : List ℚ → ℚ
  | [] => 0
  | x :: xs => xs.foldl max x

/-- The per-group operation switch of `aggregateData`; an unknown
operation yields zero. -/
def applyOp (operation : String) (vs : List ℚ) : ℚ :=
  if operation = "sum" then vs.foldl (· + ·) 0
  else if operation = "avg" then vs.foldl (· + ·) 0 / (vs.length : ℚ)
  else if operation = "count" then (vs.length : ℚ)
  else if operation = "min" then minList vs
  else if operation = "max" then maxList vs
  else 0

/-- Rounding to two decimals: `Math.round(value * 100) / 100`, where
`Math.round` is floor of the value plus one half. -/
def round2 (q : ℚ) : ℚ := (⌊q * 100 + 1 / 2⌋ : ℚ) / 100

/-- The result rows of `aggregateData` in first-encountered group
order, before the final sort. -/
def preAgg (data : List Record) (groupBy metric operation : String) :
    List AggEntry :=
  (buildGroups data groupBy metric).map
    (fun g => ⟨g.1, round2 (applyOp operation g.2)⟩)

/-- The final comparator of `aggregateData`:
`(a, b) => b.value - a.value`, descending by value. -/
def aggLe (a b : AggEntry) : Bool := decide (b.value - a.value ≤ 0)

/-- The `aggregateData` function of the server: group, apply the
operation, round, then sort descending by value (stably, so ties keep
first-encountered group order). -/
def aggregateData (data : List Record) (groupBy metric operation : String) :
    List AggEntry :=
  insSort aggLe (preAgg data groupBy metric operation)

/-- The heap of record arrays.  JavaScript arrays are mutable objects;
dataset record arrays live in this heap and handlers receive references
(indices) into it, so that in-place mutation such as `Array.prototype.sort`
and the defensive copies `[...dataset.data]` are observable. -/
abbrev Heap := List (List Record)

/-- Read of an array reference. -/
def hget (h : Heap) (r : ℕ) : List Record := h.getD r []

/-- Allocation of a fresh array (spread copies, literals). -/
def halloc (h : Heap) (v : List Record) : Heap × ℕ := (h ++ [v], h.length)

/-- In-place overwrite of an array, as done by `Array.prototype.sort`. -/
def hset (h : Heap) (r : ℕ) (v : List Record) : Heap := h.set r v

/-- A loaded dataset as stored in the `datasets` map: metadata plus a
reference to its record array. -/
structure DatasetH where
  name : String
  description : String
  schema : List (String × String)
  dataRef : ℕ

/-- The `datasets` map of the server, keyed by dataset name. -/
abbrev Store := List DatasetH

/-- Lookup `datasets.get(name)`; an absent request field gives
`undefined`, which is in no map. -/
def storeGet (s : Store) : Option String → Option DatasetH
  | none => none
  | some nm => s.find? (fun d => d.name == nm)

/-- Numeric field statistics; `none` stands for the Infinity/NaN
sentinels produced by `Math.min`, `Math.max` and division on an empty
value list. -/
structure NumFieldStats where
  minVal : Option ℚ
  maxVal : Option ℚ
  avgVal : Option ℚ

/-- Statistics of one schema field, from `getFieldStats`. -/
inductive FieldStats where
  | nums (s : NumFieldStats)
  | strs (uniqueCount : ℕ) (values : List (Option JVal))
  | blank

/-- Set-based deduplication preserving insertion order, as a JavaScript
`Set` does (SameValueZero is `strictEq` on this value domain). -/
def dedupSVZ (l : List (Option JVal)) : List (Option JVal) :=
  l.foldl (fun acc v => if acc.any (fun w => strictEq w v) then acc else acc ++ [v]) []

/-- The default comparator of `Array.prototype.sort()`: undefined
elements sort last, other elements compare by their string form. -/
def defaultSortLe (a b : Option JVal) : Bool :=
  match a, b with
  | none, none => true
  | none, some _ => false
  | some _, none => true
  | some x, some y => !decide (jvalToString y < jvalToString x)

/-- The `getUniqueValues` helper: deduplicate the column then sort with
the default comparator. -/
def getUniqueValues (data : List Record) (field : String) : List (Option JVal) :=
  insSort defaultSortLe (dedupSVZ (data.map (fun r => rget r field)))

/-- The `getFieldStats` helper of the server. -/
def getFieldStats (data : List Record) (field : String) (ty : String) :
    FieldStats :=
  if ty = "number" then
    let values := (data.map (fun r => toNumber (rget r field))).filterMap id
    .nums ⟨values.min?, values.max?,
      match values with
      | [] => none
      | _ => some (round2 (values.foldl (· + ·) 0 / (values.length : ℚ)))⟩
  else if ty = "string" then
    let u := getUniqueValues data field
    .strs u.length (u.take 50)
  else .blank

/-- One CSV cell: string values containing the delimiter are quoted,
everything else is its string form. -/
def csvCell (v : Option JVal) : String :=
  match v with
  | some (.str s) => if strHasSegment s "," then "\"" ++ s ++ "\"" else s
  | _ => jsToString v

/-- One CSV data row over the schema headers. -/
def csvRow (headers : List String) (r : Record) : String :=
  String.intercalate "," (headers.map (fun hd => csvCell (rget r hd)))

/-- The CSV branch of the export handler: header line from the schema
keys, then one line per record. -/
def csvExport (schema : List (String × String)) (data : List Record) : String :=
  let headers := schema.map (·.1)
  String.intercalate "\n"
    (String.intercalate "," headers :: data.map (csvRow headers))

mutual

/-- Model of `JSON.stringify` on a value, up to the whitespace of the
pretty printer and string escaping (no claim depends on either). -/
def jsonOfJVal : JVal → String
  | .num q => numToString q
  | .str s => "\"" ++ s ++ "\""
  | .bool b => Bool.rec "false" "true" b
  | .null => "null"
  | .arr xs => "[" ++ jsonOfList xs ++ "]"
  | .obj fs => "\x7b" ++ jsonOfFields fs ++ "\x7d"

/-- Comma-joined serialization of array elements. -/
def jsonOfList : List JVal → String
  | [] => ""
  | [x] => jsonOfJVal x
  | x :: y :: xs => jsonOfJVal x ++ "," ++ jsonOfList (y :: xs)

/-- Comma-joined serialization of object fields. -/
def jsonOfFields : List (String × JVal) → String
  | [] => ""
  | [(k, v)] => "\"" ++ k ++ "\":" ++ jsonOfJVal v
  | (k, v) :: f :: fs =>
      "\"" ++ k ++ "\":" ++ jsonOfJVal v ++ "," ++ jsonOfFields (f :: fs)

end

/-- The JSON branch of the export handler. -/
def jsonStringify (data : List Record) : String :=
  "[" ++ jsonOfList (data.map JVal.obj) ++ "]"

/-- Arguments of the query-data tool; `none` marks an absent body field
so that the destructuring defaults of the handler are observable. -/
structure QueryArgs where
  dataset : Option String := none
  filters : Option (List QFilter) := none
  sort : Option SortSpec := none
  limit : Option ℤ := none
  offset : Option ℤ := none

/-- The payload of a successful query-data response. -/
structure QueryResult where
  data : List Record
  totalCount : ℕ
  offset : ℤ
  limit : ℤ
  hasMore : Bool

/-- The query-data handler.  Defaults: `filters = []`, `limit = 100`,
`offset = 0`.  A missing dataset yields the not-found envelope (`none`);
a TypeError raised by a malformed filter propagates as `.error`.  The
handler copies the record array, filters, counts, optionally sorts the
copy in place, then slices the page. -/
def queryDataH (h : Heap) (s : Store) (a : QueryArgs) :
    Heap × Except String (Option QueryResult) :=
  let filters := a.filters.getD []
  let limit := a.limit.getD 100
  let offset := a.offset.getD 0
  match storeGet s a.dataset with
  | none => (h, .ok none)
  | some ds =>
      let p1 := halloc h (hget h ds.dataRef)
      match (if 0 < filters.length then applyFilters (hget p1.1 p1.2) filters
             else .ok (hget p1.1 p1.2)) with
      | .error e => (p1.1, .error e)
      | .ok fdata =>
          let totalCount := fdata.length
          match a.sort with
          | some sp =>
              let p2 := halloc p1.1 fdata
              let h3 := hset p2.1 p2.2 (sortData (hget p2.1 p2.2) sp)
              let page := jsSlice (hget h3 p2.2) offset (offset + limit)
              (h3, .ok (some ⟨page, totalCount, offset, limit,
                decide (offset + limit < (totalCount : ℤ))⟩))
          | none =>
              let page := jsSlice fdata offset (offset + limit)
              (p1.1, .ok (some ⟨page, totalCount, offset, limit,
                decide (offset + limit < (totalCount : ℤ))⟩))

/-- Arguments of the export-data tool. -/
structure ExportArgs where
  dataset : Option String := none
  filters : Option (List QFilter) := none
  format : Option String := none

/-- The payload of a successful export-data response. -/
structure ExportResult where
  format : String
  recordCount : ℕ
  content : String

/-- The export-data handler.  Defaults: `filters = []`,
`format = "json"`; any format other than "csv" serializes as JSON. -/
def exportDataH (h : Heap) (s : Store) (a : ExportArgs) :
    Heap × Except String (Option ExportResult) :=
  let filters := a.filters.getD []
  let format := a.format.getD "json"
  match storeGet s a.dataset with
  | none => (h, .ok none)
  | some ds =>
      let p1 := halloc h (hget h ds.dataRef)
      match (if 0 < filters.length then applyFilters (hget p1.1 p1.2) filters
             else .ok (hget p1.1 p1.2)) with
      | .error e => (p1.1, .error e)
      | .ok fdata =>
          let content := if format = "csv" then csvExport ds.schema fdata
                         else jsonStringify fdata
          (p1.1, .ok (some ⟨format, fdata.length, content⟩))

/-- One entry of the list-datasets response. -/
structure DatasetInfo where
  name : String
  description : String
  recordCount : ℕ
  columns : List String

/-- The list-datasets handler: pure metadata projection of the store. -/
def listDatasetsH (h : Heap) (s : Store) : Heap × List DatasetInfo :=
  (h, s.map (fun ds =>
    ⟨ds.name, ds.description, (hget h ds.dataRef).length, ds.schema.map (·.1)⟩))

/-- The get-schema response payload. -/
structure SchemaResult where
  name : String
  description : String
  recordCount : ℕ
  schema : List (String × String × FieldStats)

/-- The get-schema handler. -/
def getSchemaH (h : Heap) (s : Store) (dataset : Option String) :
    Heap × Option SchemaResult :=
  match storeGet s dataset with
  | none => (h, none)
  | some ds =>
      (h, some ⟨ds.name, ds.description, (hget h ds.dataRef).length,
        ds.schema.map (fun ft =>
          (ft.1, ft.2, getFieldStats (hget h ds.dataRef) ft.1 ft.2))⟩)

/-- Arguments of the aggregate tool. -/
structure AggArgs where
  dataset : Option String := none
  groupBy : String := ""
  metric : String := ""
  operation : String := ""

/-- The aggregate response payload. -/
structure AggResult where
  groupBy : String
  metric : String
  operation : String
  results : List AggEntry

/-- The aggregate handler: reads the record array directly (no copy is
needed, `aggregateData` only reads it). -/
def aggregateH (h : Heap) (s : Store) (a : AggArgs) : Heap × Option AggResult :=
  match storeGet s a.dataset with
  | none => (h, none)
  | some ds =>
      (h, some ⟨a.groupBy, a.metric, a.operation,
        aggregateData (hget h ds.dataRef) a.groupBy a.metric a.operation⟩)

/-- The backend reached by `callTool` (an HTTP POST): given the tool
name and arguments it either returns a result value or fails, the
failure description being what `String(error)` produces. -/
abbrev ToolEnv := Option JVal → JVal → Except String JVal

/-- A success response of the relay: same correlation id, a `result`
member and no `error` member. -/
def respOk (idv r : JVal) : JVal :=
  .obj [("jsonrpc", .str "2.0"), ("id", idv), ("result", r)]

/-- An error response of the relay: same correlation id, an `error`
member carrying the generic failure code -32000 and the failure
description, and no `result` member. -/
def respErr (idv : JVal) (e : String) : JVal :=
  .obj [("jsonrpc", .str "2.0"), ("id", idv),
        ("error", .obj [("code", .num (-32000)), ("message", .str e)])]

/-- Strict equality of a possibly-undefined value against a string
literal, modelling the comparisons of `message.method` in the method
switch; only an identical string compares equal. -/
def isMethod (v : Option JVal) (s : String) : Bool :=
  match v with
  | some (.str t) => t == s
  | _ => false

/-- The ui/initialize result object; the protocol version echoes a
truthy `params.protocolVersion` and otherwise defaults. -/
def initResult (m : JVal) : JVal :=
  let pv : JVal :=
    match (jget m "params").bind (fun p => jget p "protocolVersion") with
    | some v => if truthy v then v else .str "2025-11-21"
    | none => .str "2025-11-21"
  .obj [("protocolVersion", pv),
        ("hostCapabilities", .obj [("serverTools", .obj []), ("logging", .obj [])]),
        ("hostInfo", .obj [("name", .str "DataExplorerHost"), ("version", .str "1.0.0")]),
        ("hostContext", .obj [])]

/-- Outcome of the method dispatch inside the request branch of
`handleMessage`: the computed result or raised failure, plus the list
of backend tool invocations made. -/
structure DispatchOut where
  result : Except String JVal
  calls : List (Option JVal × JVal)

/-- The method switch of `handleMessage`.  tools/call dereferences
`message.params.name` without optional chaining, so undefined or null
params raise a TypeError that the surrounding try/catch turns into an
error response; unknown methods (and ping) resolve to the empty object. -/
def dispatchReq (env : ToolEnv) (m : JVal) : DispatchOut :=
  if isMethod (jget m "method") "ui/initialize" then ⟨.ok (initResult m), []⟩
  else if isMethod (jget m "method") "tools/call" then
    match jget m "params" with
    | none => ⟨.error "TypeError: Cannot read properties of undefined", []⟩
    | some .null => ⟨.error "TypeError: Cannot read properties of null", []⟩
    | some p =>
        let nm := jget p "name"
        let args : JVal :=
          match jget p "arguments" with
          | some a => if truthy a then a else .obj []
          | none => .obj []
        ⟨env nm args, [(nm, args)]⟩
  else if isMethod (jget m "method") "ping" then ⟨.ok (.obj []), []⟩
  else ⟨.ok (.obj []), []⟩

/-- Truthiness and typeof gate of `handleMessage`: only objects and
arrays pass the check that the message is truthy and of object type. -/
def isObjLike : JVal → Bool
  | .obj _ => true
  | .arr _ => true
  | _ => false

/-- Observable output of one `handleMessage` run: the responses posted
back to the iframe and the backend tool invocations performed. -/
structure RelayOut where
  responses : List JVal
  calls : List (Option JVal × JVal)

/-- The `handleMessage` relay of the host, for one inbound message
event with source `src`: messages from any source other than the
established peer are dropped; non-object data is ignored; a message
with protocol tag "2.0" and a correlation id is a request answered by
exactly one response; anything else is at most logged. -/
def handleMessage {σ : Type _} [DecidableEq σ] (peer : σ) (env : ToolEnv)
    (src : σ) (m : JVal) : RelayOut :=
  if src = peer then
    if isObjLike m then
      match jget m "id" with
      | some idv =>
          if isMethod (jget m "jsonrpc") "2.0" then
            let d := dispatchReq env m
            match d.result with
            | .ok r => ⟨[respOk idv r], d.calls⟩
            | .error e => ⟨[respErr idv e], d.calls⟩
          else ⟨[], []⟩
      | none => ⟨[], []⟩
    else ⟨[], []⟩
  else ⟨[], []⟩

theorem dispatchReq_calls_len (env : ToolEnv) (m : JVal) :
    (dispatchReq env m).calls.length ≤ 1 := by
  unfold dispatchReq
  repeat' split
  all_goals simp

theorem jget_respOk_id (idv r : JVal) : jget (respOk idv r) "id" = some idv := by
  simp [respOk, jget, jlookup, List.foldl]

theorem jget_respOk_result (idv r : JVal) :
    jget (respOk idv r) "result" = some r := by
  simp [respOk, jget, jlookup, List.foldl]

theorem jget_respOk_error (idv r : JVal) : jget (respOk idv r) "error" = none := by
  simp [respOk, jget, jlookup, List.foldl]

theorem jget_respErr_id (idv : JVal) (e : String) :
    jget (respErr idv e) "id" = some idv := by
  simp [respErr, jget, jlookup, List.foldl]

theorem jget_respErr_error (idv : JVal) (e : String) :
    jget (respErr idv e) "error"
      = some (.obj [("code", .num (-32000)), ("message", .str e)]) := by
  simp [respErr, jget, jlookup, List.foldl]

theorem jget_respErr_result (idv : JVal) (e : String) :
    jget (respErr idv e) "result" = none := by
  simp [respErr, jget, jlookup, List.foldl]

/-- C1: in the Ready relay, an inbound message from the established
peer carrying the protocol tag and a correlation id is answered by
exactly one response bearing the same id, whatever the dispatch
outcome: the result on success, and on failure an error object with the
generic code -32000 and a message derived from the failure description;
the backend handler is invoked at most once and never twice. -/
theorem relay_request_exactly_one_response {σ : Type _} [DecidableEq σ]
    (peer src : σ) (env : ToolEnv) (m idv : JVal)
    (hsrc : src = peer) (hobj : isObjLike m = true)
    (hrpc : isMethod (jget m "jsonrpc") "2.0" = true)
    (hid : jget m "id" = some idv) :
    (handleMessage peer env src m).responses.length = 1
    ∧ (∀ resp ∈ (handleMessage peer env src m).responses,
        jget resp "id" = some idv)
    ∧ (∀ r, (dispatchReq env m).result = .ok r →
        (handleMessage peer env src m).responses = [respOk idv r]
        ∧ jget (respOk idv r) "result" = some r
        ∧ jget (respOk idv r) "error" = none)
    ∧ (∀ e, (dispatchReq env m).result = .error e →
        (handleMessage peer env src m).responses = [respErr idv e]
        ∧ jget (respErr idv e) "error"
            = some (.obj [("code", .num (-32000)), ("message", .str e)])
        ∧ jget (respErr idv e) "result" = none)
    ∧ (handleMessage peer env src m).calls = (dispatchReq env m).calls
    ∧ (dispatchReq env m).calls.length ≤ 1 := by
  subst hsrc
  have hstep : handleMessage src env src m =
      (match (dispatchReq env m).result with
        | .ok r => ⟨[respOk idv r], (dispatchReq env m).calls⟩
        | .error e => ⟨[respErr idv e], (dispatchReq env m).calls⟩) := by
    simp only [handleMessage, hobj, hid, hrpc, if_true, eq_self_iff_true, ite_true]
  rcases hd : (dispatchReq env m).result with e | r <;> rw [hd] at hstep
  · refine ⟨?_, ?_, ?_, ?_, ?_, dispatchReq_calls_len env m⟩ <;>
      simp [hstep, hd, jget_respErr_id, jget_respErr_error, jget_respErr_result]
  · refine ⟨?_, ?_, ?_, ?_, ?_, dispatchReq_calls_len env m⟩ <;>
      simp [hstep, hd, jget_respOk_id, jget_respOk_result, jget_respOk_error]

/-- A backend environment whose every call succeeds with `null`. -/
def envConstOk : ToolEnv := fun _ _ => .ok .null

/-- A concrete ping request message. -/
def msgPing : JVal :=
  .obj [("jsonrpc", .str "2.0"), ("id", .num 7), ("method", .str "ping")]

theorem relay_request_exactly_one_response_witness :
    (handleMessage true envConstOk true msgPing).responses.length = 1 :=
  (relay_request_exactly_one_response true true envConstOk msgPing (.num 7)
    rfl rfl rfl rfl).1

/-- C2: an inbound message whose source is not the established peer
produces no response and invokes no handler: it is silently dropped. -/
theorem relay_nonpeer_message_dropped {σ : Type _} [DecidableEq σ]
    (peer src : σ) (env : ToolEnv) (m : JVal) (hsrc : src ≠ peer) :
    handleMessage peer env src m = ⟨[], []⟩ := by
  simp [handleMessage, hsrc]

theorem relay_nonpeer_message_dropped_witness :
    handleMessage true envConstOk false msgPing = ⟨[], []⟩ :=
  relay_nonpeer_message_dropped true false envConstOk msgPing (by decide)

/-- C8: a request from the valid peer whose method is none of
ui/initialize, tools/call and ping receives exactly one empty success
result and never an error, and the backend is not invoked. -/
theorem relay_unknown_method_empty_result {σ : Type _} [DecidableEq σ]
    (peer src : σ) (env : ToolEnv) (m idv : JVal)
    (hsrc : src = peer) (hobj : isObjLike m = true)
    (hrpc : isMethod (jget m "jsonrpc") "2.0" = true)
    (hid : jget m "id" = some idv)
    (h1 : isMethod (jget m "method") "ui/initialize" = false)
    (h2 : isMethod (jget m "method") "tools/call" = false)
    (h3 : isMethod (jget m "method") "ping" = false) :
    handleMessage peer env src m = ⟨[respOk idv (.obj [])], []⟩ := by
  subst hsrc
  have hd : dispatchReq env m = ⟨.ok (.obj []), []⟩ := by
    unfold dispatchReq
    simp [h1, h2, h3]
  simp [handleMessage, hobj, hrpc, hid, hd]

/-- A concrete request with an unknown method. -/
def msgUnknown : JVal :=
  .obj [("jsonrpc", .str "2.0"), ("id", .str "42"), ("method", .str "frobnicate")]

theorem relay_unknown_method_empty_result_witness :
    handleMessage true envConstOk true msgUnknown
      = ⟨[respOk (.str "42") (.obj [])], []⟩ :=
  relay_unknown_method_empty_result true true envConstOk msgUnknown (.str "42")
    rfl rfl rfl rfl rfl rfl rfl

theorem matchesFilter_unknown_op (row : Record) (f : QFilter)
    (hop : f.operator ∉
      (["eq", "ne", "gt", "gte", "lt", "lte", "contains", "in"] : List String)) :
    matchesFilter row f = .ok true := by
  simp only [List.mem_cons, List.not_mem_nil, or_false, not_or] at hop
  obtain ⟨h1, h2, h3, h4, h5, h6, h7, h8⟩ := hop
  simp [matchesFilter, h1, h2, h3, h4, h5, h6, h7, h8]

theorem applyFilters_mem (data : List Record) (filters : List QFilter)
    (res : List Record) (h : applyFilters data filters = .ok res) :
    ∀ r ∈ res, r ∈ data := by
  induction data generalizing res with
  | nil =>
      simp only [applyFilters, Except.ok.injEq] at h
      subst h; simp
  | cons r rest ih =>
      rcases hrm : rowMatches r filters with e | b
      · simp [applyFilters, hrm] at h
      · cases b
        · simp only [applyFilters, hrm] at h
          intro x hx
          exact List.mem_cons_of_mem r (ih res h x hx)
        · rcases hr2 : applyFilters rest filters with e2 | res2
          · rw [applyFilters, hrm, hr2] at h; cases h
          · rw [applyFilters, hrm, hr2] at h
            simp only [Except.map, Except.ok.injEq] at h
            subst h
            intro x hx
            rcases List.mem_cons.mp hx with rfl | hx
            · exact List.mem_cons_self x rest
            · exact List.mem_cons_of_mem r (ih res2 hr2 x hx)

theorem applyFilters_sound (data : List Record) (filters : List QFilter)
    (res : List Record) (h : applyFilters data filters = .ok res) :
    ∀ r ∈ res, rowMatches r filters = .ok true := by
  induction data generalizing res with
  | nil =>
      simp only [applyFilters, Except.ok.injEq] at h
      subst h; simp
  | cons r rest ih =>
      rcases hrm : rowMatches r filters with e | b
      · simp [applyFilters, hrm] at h
      · cases b
        · simp only [applyFilters, hrm] at h
          exact ih res h
        · rcases hr2 : applyFilters rest filters with e2 | res2
          · rw [applyFilters, hrm, hr2] at h; cases h
          · rw [applyFilters, hrm, hr2] at h
            simp only [Except.map, Except.ok.injEq] at h
            subst h
            intro x hx
            rcases List.mem_cons.mp hx with rfl | hx
            · exact hrm
            · exact ih res2 hr2 x hx

/-- C3: whenever `applyFilters` returns a record list, that list is a
subset of the input and every returned record satisfies the conjunction
of all filters; moreover a filter with an unknown operator passes every
record (the permissive default arm), it is not an error. -/
theorem applyFilters_subset_sound_permissive
    (data : List Record) (filters : List QFilter) (res : List Record)
    (h : applyFilters data filters = .ok res) :
    (∀ r ∈ res, r ∈ data)
    ∧ (∀ r ∈ res, rowMatches r filters = .ok true)
    ∧ (∀ (row : Record) (f : QFilter),
        f.operator ∉
          (["eq", "ne", "gt", "gte", "lt", "lte", "contains", "in"] : List String) →
        matchesFilter row f = .ok true) :=
  ⟨applyFilters_mem data filters res h,
   applyFilters_sound data filters res h,
   fun row f hop => matchesFilter_unknown_op row f hop⟩

theorem applyFilters_subset_sound_permissive_witness :
    ([("a", JVal.str "x")] : Record)
      ∈ ([[("a", JVal.str "x")], [("a", JVal.str "y")]] : List Record) :=
  (applyFilters_subset_sound_permissive
      [[("a", JVal.str "x")], [("a", JVal.str "y")]]
      [⟨"a", "eq", JVal.str "x"⟩] [[("a", JVal.str "x")]] rfl).1
    _ (by simp)

/-- C4 counterexample: an `in` filter whose value is a number (not a
sequence) makes `applyFilters` raise a TypeError, so the filter
operation does not always return a record list. -/
theorem applyFilters_in_nonseq_raises :
    applyFilters [[("a", JVal.num 1)]] [⟨"a", "in", JVal.num 5⟩]
      = .error "TypeError: filter.value.includes is not a function" := rfl

theorem matchesFilter_total (row : Record) (f : QFilter)
    (hin : f.operator = "in" →
      (∃ xs, f.value = JVal.arr xs) ∨ (∃ s, f.value = JVal.str s)) :
    ∃ b, matchesFilter row f = .ok b := by
  unfold matchesFilter
  split_ifs with h1 h2 h3 h4 h5 h6 h7 h8
  · exact ⟨_, rfl⟩
  · exact ⟨_, rfl⟩
  · exact ⟨_, rfl⟩
  · exact ⟨_, rfl⟩
  · exact ⟨_, rfl⟩
  · exact ⟨_, rfl⟩
  · exact ⟨_, rfl⟩
  · rcases hin h8 with ⟨xs, hv⟩ | ⟨t, hv⟩ <;> rw [hv] <;> exact ⟨_, rfl⟩
  · exact ⟨_, rfl⟩

theorem rowMatches_total (row : Record) (filters : List QFilter)
    (hin : ∀ f ∈ filters, f.operator = "in" →
      (∃ xs, f.value = JVal.arr xs) ∨ (∃ s, f.value = JVal.str s)) :
    ∃ b, rowMatches row filters = .ok b := by
  induction filters with
  | nil => exact ⟨true, rfl⟩
  | cons f rest ih =>
      obtain ⟨b, hb⟩ := matchesFilter_total row f (hin f (by simp))
      cases b
      · exact ⟨false, by simp [rowMatches, hb]⟩
      · obtain ⟨b2, hb2⟩ := ih (fun g hg => hin g (List.mem_cons_of_mem f hg))
        exact ⟨b2, by simp [rowMatches, hb, hb2]⟩

/-- C4 amended: `applyFilters` never raises provided every `in` filter
carries an array or string value (the two receivers with an `includes`
method); range and `contains` filters over non-numeric values never
raise.  The original claim fails because an `in` filter with any other
value raises a TypeError, see `applyFilters_in_nonseq_raises`. -/
theorem applyFilters_ok_of_seq_in_values
    (data : List Record) (filters : List QFilter)
    (hin : ∀ f ∈ filters, f.operator = "in" →
      (∃ xs, f.value = JVal.arr xs) ∨ (∃ s, f.value = JVal.str s)) :
    ∃ res, applyFilters data filters = .ok res := by
  induction data with
  | nil => exact ⟨[], rfl⟩
  | cons r rest ih =>
      obtain ⟨res, hres⟩ := ih
      obtain ⟨b, hb⟩ := rowMatches_total r filters hin
      cases b
      · exact ⟨res, by simp [applyFilters, hb, hres]⟩
      · exact ⟨r :: res, by simp [applyFilters, hb, hres, Except.map]⟩

theorem applyFilters_ok_of_seq_in_values_witness :
    ∃ res, applyFilters [[("a", JVal.num 1)]]
      [⟨"a", "in", JVal.arr [JVal.num 1, JVal.num 2]⟩] = .ok res :=
  applyFilters_ok_of_seq_in_values _ _ (by
    rintro f hf h
    simp only [List.mem_singleton] at hf
    subst hf
    exact Or.inl ⟨_, rfl⟩)

theorem strictEq_trans_right (a b v : Option JVal)
    (ha : strictEq a v = true) (hb : strictEq b v = true) :
    strictEq a b = true := by
  rcases v with _ | (q | s | bb | _ | xs | fs) <;>
    rcases a with _ | (qa | sa | ba | _ | xa | fa) <;>
      rcases b with _ | (qb | sb | bbb | _ | xb | fb) <;>
        simp_all [strictEq]

theorem sortLe_of_tied (sp : SortSpec) (v : Option JVal) (a b : Record)
    (ha : strictEq (rget a sp.field) v = true)
    (hb : strictEq (rget b sp.field) v = true) :
    sortLe sp a b = true := by
  have h := strictEq_trans_right _ _ _ ha hb
  simp [sortLe, sortCmp, h]

/-- C6: `sortData` is stable — for every key value, the subsequence of
records whose sort key is strictly equal to it is unchanged by the
sort, for either direction; the comparator compares two string values
with `localeCompare`, two numeric values numerically, and direction
"desc" exactly negates the ascending comparator, which preserves ties
and hence stability. -/
theorem sortData_stable_comparator_spec :
    (∀ (data : List Record) (sp : SortSpec) (v : Option JVal),
        (sortData data sp).filter (fun r => strictEq (rget r sp.field) v)
          = data.filter (fun r => strictEq (rget r sp.field) v))
    ∧ (∀ (fd : String) (a b : Record) (s t : String),
        rget a fd = some (.str s) → rget b fd = some (.str t) →
        sortCmp ⟨fd, "asc"⟩ a b = localeCompare s t)
    ∧ (∀ (fd : String) (a b : Record) (p q : ℚ),
        rget a fd = some (.num p) → rget b fd = some (.num q) →
        sortCmp ⟨fd, "asc"⟩ a b = (if p = q then 0 else if p < q then -1 else 1))
    ∧ (∀ (fd : String) (a b : Record),
        sortCmp ⟨fd, "desc"⟩ a b = - sortCmp ⟨fd, "asc"⟩ a b) := by
  refine ⟨?_, ?_, ?_, ?_⟩
  · intro data sp v
    exact filter_insSort (sortLe sp) _ data
      (fun x y hx hy => sortLe_of_tied sp v x y hx hy)
  · intro fd a b s t ha hb
    by_cases hst : s = t
    · subst hst
      simp [sortCmp, ha, hb, strictEq, localeCompare, String.lt_irrefl]
    · simp [sortCmp, ha, hb, strictEq, hst]
  · intro fd a b p q ha hb
    by_cases hpq : p = q
    · subst hpq
      simp [sortCmp, ha, hb, strictEq]
    · by_cases hlt : p < q <;>
        simp [sortCmp, ha, hb, strictEq, hpq, jsRel, toPrim, primToNum, hlt]
  · intro fd a b
    by_cases h : strictEq (rget a fd) (rget b fd) = true
    · simp [sortCmp, h]
    · simp [sortCmp, h]

theorem sortData_stable_comparator_spec_witness :
    sortCmp ⟨"a", "asc"⟩ [("a", JVal.str "x")] [("a", JVal.str "y")]
      = localeCompare "x" "y" :=
  sortData_stable_comparator_spec.2.1 "a" _ _ "x" "y" rfl rfl

theorem hget_halloc (h : Heap) (v : List Record) :
    hget (halloc h v).1 (halloc h v).2 = v := by
  simp [hget, halloc, List.getD_eq_getElem?_getD, List.getElem?_append]

theorem hget_hset_fresh (h : Heap) (v w : List Record) :
    hget (hset (halloc h v).1 (halloc h v).2 w) (halloc h v).2 = w := by
  simp only [hget, halloc, hset, List.getD_eq_getElem?_getD]
  rw [List.getElem?_set_eq_of_lt w (by simp)]
  rfl

theorem jsSlice_length_le {α : Type _} (l : List α) (offset limit : ℤ)
    (hlim : 0 ≤ limit) :
    ((jsSlice l offset (offset + limit)).length : ℤ) ≤ limit := by
  simp only [jsSlice, List.length_drop, List.length_take, jsClamp, Nat.min_def]
  split_ifs <;> omega

theorem jsSlice_eq_nil_of_offset_ge {α : Type _} (l : List α) (offset stop : ℤ)
    (hoff : (l.length : ℤ) ≤ offset) : jsSlice l offset stop = [] := by
  have hk : jsClamp l.length offset = l.length := by
    simp only [jsClamp, Nat.min_def]
    split_ifs <;> omega
  rw [jsSlice, hk]
  exact List.drop_eq_nil_of_le (by simp [List.length_take])

theorem jsSlice_sublist {α : Type _} (l : List α) (start stop : ℤ) :
    (jsSlice l start stop).Sublist l :=
  ((List.take _ l).drop_sublist _).trans (l.take_sublist _)

/-- C5 counterexample: on a two-record dataset, query-data with
offset 0 and limit -1 returns a one-record page (the slice end counts
from the end of the array), so the page length does not respect the
limit bound and a negative limit does not clamp to an empty page. -/
theorem queryData_negative_limit_breaks_page_bound :
    (queryDataH [[[("x", JVal.num 1)], [("x", JVal.num 2)]]]
        [⟨"d", "demo", [("x", "number")], 0⟩]
        ⟨some "d", none, none, some (-1), some 0⟩).2
      = .ok (some ⟨[[("x", JVal.num 1)]], 2, 0, -1, true⟩)
    ∧ ¬ ((([[("x", JVal.num 1)]] : List Record).length : ℤ) ≤ (-1 : ℤ)) :=
  ⟨rfl, by decide⟩

/-- C5 amended: for every query-data call that returns a page, with
`fdata` the filtered record list: the reported total count is the
number of records after filtering and before pagination, `hasMore`
equals `offset + limit < totalCount`, and whenever the limit is
nonnegative the page length is at most the limit and an offset at or
beyond the total count yields an empty page.  The original claim fails
for negative limits, which follow the end-relative index semantics of
`Array.prototype.slice` (see the counterexample). -/
theorem queryData_pagination_correct
    (h : Heap) (s : Store) (a : QueryArgs) (ds : DatasetH)
    (h' : Heap) (q : QueryResult) (fdata : List Record)
    (hds : storeGet s a.dataset = some ds)
    (hq : queryDataH h s a = (h', .ok (some q)))
    (hf : (if 0 < (a.filters.getD []).length
           then applyFilters (hget h ds.dataRef) (a.filters.getD [])
           else .ok (hget h ds.dataRef)) = .ok fdata)
    (hlim : 0 ≤ a.limit.getD 100) :
    ((q.data.length : ℤ) ≤ a.limit.getD 100)
    ∧ q.totalCount = fdata.length
    ∧ (q.hasMore = true ↔
        a.offset.getD 0 + a.limit.getD 100 < (q.totalCount : ℤ))
    ∧ ((q.totalCount : ℤ) ≤ a.offset.getD 0 → q.data = []) := by
  rcases hsort : a.sort with _ | sp
  · simp only [queryDataH, hds, hsort, hget_halloc] at hq
    rw [hf] at hq
    simp only [Prod.mk.injEq, Except.ok.injEq, Option.some.injEq] at hq
    obtain ⟨-, hqq⟩ := hq
    subst hqq
    refine ⟨jsSlice_length_le fdata _ _ hlim, rfl, by simp, ?_⟩
    intro hoff
    exact jsSlice_eq_nil_of_offset_ge fdata _ _ hoff
  · simp only [queryDataH, hds, hsort, hget_halloc, hget_hset_fresh] at hq
    rw [hf] at hq
    simp only [Prod.mk.injEq, Except.ok.injEq, Option.some.injEq] at hq
    obtain ⟨-, hqq⟩ := hq
    subst hqq
    have hlen : (sortData fdata sp).length = fdata.length :=
      (insSort_perm (sortLe sp) fdata).length_eq
    refine ⟨?_, rfl, by simp, ?_⟩
    · exact jsSlice_length_le (sortData fdata sp) _ _ hlim
    · intro hoff
      exact jsSlice_eq_nil_of_offset_ge (sortData fdata sp) _ _ (by rw [hlen]; exact hoff)

theorem queryData_pagination_correct_witness :
    ((([[("x", JVal.num 1)]] : List Record).length : ℤ) ≤ (1 : ℤ)) :=
  (queryData_pagination_correct
    [[[("x", JVal.num 1)], [("x", JVal.num 2)]]]
    [⟨"d", "demo", [("x", "number")], 0⟩]
    ⟨some "d", none, none, some 1, some 0⟩
    ⟨"d", "demo", [("x", "number")], 0⟩
    ([[[("x", JVal.num 1)], [("x", JVal.num 2)]],
      [[("x", JVal.num 1)], [("x", JVal.num 2)]]])
    ⟨[[("x", JVal.num 1)]], 2, 0, 1, true⟩
    [[("x", JVal.num 1)], [("x", JVal.num 2)]]
    rfl rfl rfl (by decide)).1

/-- C10: calling query-data with limit, offset or filters omitted
behaves exactly as limit 100, offset 0 and the empty filter list; and
with filters omitted the reported total count is the full record count
of the dataset and every page record is drawn from the dataset records. -/
theorem queryData_default_args
    (h : Heap) (s : Store) (dsname : Option String) (sortArg : Option SortSpec) :
    queryDataH h s ⟨dsname, none, sortArg, none, none⟩
      = queryDataH h s ⟨dsname, some [], sortArg, some 100, some 0⟩
    ∧ (∀ ds h' q, storeGet s dsname = some ds →
        queryDataH h s ⟨dsname, none, sortArg, none, none⟩ = (h', .ok (some q)) →
        q.totalCount = (hget h ds.dataRef).length
        ∧ ∀ r ∈ q.data, r ∈ hget h ds.dataRef) := by
  refine ⟨rfl, ?_⟩
  intro ds h' q hds hq
  rcases hsort : sortArg with _ | sp <;>
    · subst hsort
      simp only [queryDataH, hds, hget_halloc, hget_hset_fresh, Option.getD,
        List.length_nil, lt_self_iff_false, if_false] at hq
      simp only [Prod.mk.injEq, Except.ok.injEq, Option.some.injEq] at hq
      obtain ⟨-, hqq⟩ := hq
      subst hqq
      first
      | exact ⟨rfl, fun r hr => (jsSlice_sublist _ _ _).mem hr⟩
      | exact ⟨rfl, fun r hr =>
          (mem_insSort (sortLe _) r _).mp ((jsSlice_sublist _ _ _).mem hr)⟩

theorem queryData_default_args_witness :
    ([("x", JVal.num 1)] : Record)
      ∈ hget [[[("x", JVal.num 1)], [("x", JVal.num 2)]]] 0 :=
  ((queryData_default_args [[[("x", JVal.num 1)], [("x", JVal.num 2)]]]
      [⟨"d", "demo", [("x", "number")], 0⟩] (some "d") none).2
    ⟨"d", "demo", [("x", "number")], 0⟩
    ([[[("x", JVal.num 1)], [("x", JVal.num 2)]],
      [[("x", JVal.num 1)], [("x", JVal.num 2)]]])
    ⟨[[("x", JVal.num 1)], [("x", JVal.num 2)]], 2, 0, 100, false⟩
    rfl rfl).2 _ (by simp)

/-- Lookup of the value list of a group key in the group list. -/
def lookupG : List (String × List ℚ) → String → List ℚ
  | [], _ => []
  | (k, vs) :: rest, g => if k = g then vs else lookupG rest g

theorem lookupG_pushGroup (gs : List (String × List ℚ)) (k g : String) (v : ℚ) :
    lookupG (pushGroup gs k v) g
      = if k = g then lookupG gs g ++ [v] else lookupG gs g := by
  induction gs with
  | nil => by_cases h : k = g <;> simp [pushGroup, lookupG, h]
  | cons p rest ih =>
      obtain ⟨k', vs⟩ := p
      by_cases hk : k' = k
      · subst hk
        by_cases hg : k' = g <;> simp [pushGroup, lookupG, hg]
      · by_cases hg : k' = g
        · subst hg
          have hk2 : k ≠ k' := fun hh => hk hh.symm
          simp [pushGroup, lookupG, hk, hk2]
        · simp [pushGroup, lookupG, hk, hg, ih]

theorem mem_keys_pushGroup (gs : List (String × List ℚ)) (k g : String) (v : ℚ) :
    g ∈ (pushGroup gs k v).map Prod.fst ↔ g ∈ gs.map Prod.fst ∨ g = k := by
  induction gs with
  | nil => simp [pushGroup]
  | cons p rest ih =>
      obtain ⟨k', vs⟩ := p
      by_cases hk : k' = k <;> simp [pushGroup, hk, ih] <;> tauto

theorem nodup_keys_pushGroup (gs : List (String × List ℚ)) (k : String) (v : ℚ)
    (h : (gs.map Prod.fst).Nodup) :
    ((pushGroup gs k v).map Prod.fst).Nodup := by
  induction gs with
  | nil => simp [pushGroup]
  | cons p rest ih =>
      obtain ⟨k', vs⟩ := p
      simp only [List.map_cons, List.nodup_cons] at h
      by_cases hk : k' = k
      · subst hk
        have hpg : pushGroup ((k', vs) :: rest) k' v = (k', vs ++ [v]) :: rest := by
          simp [pushGroup]
        rw [hpg, List.map_cons, List.nodup_cons]
        exact h
      · simp only [pushGroup, hk, if_false, List.map_cons, List.nodup_cons]
        refine ⟨?_, ih h.2⟩
        intro hmem
        rcases (mem_keys_pushGroup rest k k' v).mp hmem with hm | he
        · exact h.1 hm
        · exact hk he

theorem lookupG_buildGroups_gen (data : List Record) (groupBy metric : String)
    (gs : List (String × List ℚ)) (g : String) :
    lookupG (data.foldl (fun acc row =>
        pushGroup acc (keyOf row groupBy) (metricVal row metric)) gs) g
      = lookupG gs g
        ++ (data.filter (fun r => keyOf r groupBy == g)).map
            (fun r => metricVal r metric) := by
  induction data generalizing gs with
  | nil => simp
  | cons r rest ih =>
      simp only [List.foldl_cons, ih, lookupG_pushGroup]
      by_cases hg : keyOf r groupBy = g
      · simp [List.filter_cons, hg, List.append_assoc]
      · simp [List.filter_cons, hg]

theorem mem_keys_buildGroups_gen (data : List Record) (groupBy metric : String)
    (gs : List (String × List ℚ)) (g : String) :
    g ∈ ((data.foldl (fun acc row =>
        pushGroup acc (keyOf row groupBy) (metricVal row metric)) gs).map Prod.fst)
      ↔ g ∈ gs.map Prod.fst ∨ ∃ r ∈ data, keyOf r groupBy = g := by
  induction data generalizing gs with
  | nil => simp
  | cons r rest ih =>
      simp only [List.foldl_cons, ih, mem_keys_pushGroup, List.mem_cons]
      constructor
      · rintro ((hm | he) | ⟨x, hx, hk⟩)
        · exact Or.inl hm
        · exact Or.inr ⟨r, Or.inl rfl, he.symm⟩
        · exact Or.inr ⟨x, Or.inr hx, hk⟩
      · rintro (hm | ⟨x, (rfl | hx), hk⟩)
        · exact Or.inl (Or.inl hm)
        · exact Or.inl (Or.inr hk.symm)
        · exact Or.inr ⟨x, hx, hk⟩

theorem nodup_keys_buildGroups_gen (data : List Record) (groupBy metric : String)
    (gs : List (String × List ℚ)) (h : (gs.map Prod.fst).Nodup) :
    (((data.foldl (fun acc row =>
        pushGroup acc (keyOf row groupBy) (metricVal row metric)) gs)).map
        Prod.fst).Nodup := by
  induction data generalizing gs with
  | nil => exact h
  | cons r rest ih =>
      simp only [List.foldl_cons]
      exact ih _ (nodup_keys_pushGroup gs _ _ h)

theorem lookupG_eq_of_mem (gs : List (String × List ℚ)) (k : String)
    (vs : List ℚ) (hnd : (gs.map Prod.fst).Nodup) (hm : (k, vs) ∈ gs) :
    lookupG gs k = vs := by
  induction gs with
  | nil => cases hm
  | cons p rest ih =>
      obtain ⟨k', vs'⟩ := p
      simp only [List.map_cons, List.nodup_cons] at hnd
      rcases List.mem_cons.mp hm with he | hm'
      · injection he with h1 h2
        subst h1; subst h2
        simp [lookupG]
      · have hk : k' ≠ k := by
          rintro rfl
          exact hnd.1 (List.mem_map.mpr ⟨(k', vs), hm', rfl⟩)
        simp only [lookupG, hk, if_false]
        exact ih hnd.2 hm'

/-- C7: `aggregateData` has exactly one entry per distinct string form
of the groupBy value — its group keys are distinct and a key occurs
exactly when some input record has that key, so the key fibers form a
complete and disjoint partition of the input records; each entry value
is the operation applied to the numeric metric coercions of its group
rows, rounded to two decimals; and the result is ordered descending by
value, ties keeping the first-encountered group order of `preAgg`. -/
theorem aggregateData_partition_values_order
    (data : List Record) (groupBy metric operation : String) :
    ((aggregateData data groupBy metric operation).map AggEntry.group).Nodup
    ∧ (∀ g, g ∈ (aggregateData data groupBy metric operation).map AggEntry.group
        ↔ ∃ r ∈ data, keyOf r groupBy = g)
    ∧ (∀ e ∈ aggregateData data groupBy metric operation,
        e.value = round2 (applyOp operation
          ((data.filter (fun r => keyOf r groupBy == e.group)).map
            (fun r => metricVal r metric))))
    ∧ (aggregateData data groupBy metric operation).Pairwise
        (fun a b => b.value ≤ a.value)
    ∧ (∀ v, (aggregateData data groupBy metric operation).filter
          (fun e => e.value == v)
        = (preAgg data groupBy metric operation).filter
          (fun e => e.value == v)) := by
  have hperm : List.Perm (aggregateData data groupBy metric operation)
      (preAgg data groupBy metric operation) := insSort_perm _ _
  have hkeys : (preAgg data groupBy metric operation).map AggEntry.group
      = (buildGroups data groupBy metric).map Prod.fst := by
    simp only [preAgg, List.map_map]
    rfl
  have hnd : ((buildGroups data groupBy metric).map Prod.fst).Nodup :=
    nodup_keys_buildGroups_gen data groupBy metric [] (by simp)
  refine ⟨?_, ?_, ?_, ?_, ?_⟩
  · have hpre : ((preAgg data groupBy metric operation).map AggEntry.group).Nodup := by
      rw [hkeys]; exact hnd
    exact ((hperm.map AggEntry.group).symm).nodup hpre
  · intro g
    rw [(hperm.map AggEntry.group).mem_iff, hkeys]
    have := mem_keys_buildGroups_gen data groupBy metric [] g
    simpa [buildGroups] using this
  · intro e he
    have hepre : e ∈ preAgg data groupBy metric operation := hperm.mem_iff.mp he
    obtain ⟨p, hp, hpe⟩ := List.mem_map.mp hepre
    have hvs : lookupG (buildGroups data groupBy metric) p.1 = p.2 :=
      lookupG_eq_of_mem _ _ _ hnd hp
    have hflt : lookupG (buildGroups data groupBy metric) p.1
        = (data.filter (fun r => keyOf r groupBy == p.1)).map
            (fun r => metricVal r metric) := by
      have := lookupG_buildGroups_gen data groupBy metric [] p.1
      simpa [buildGroups, lookupG] using this
    subst hpe
    show round2 (applyOp operation p.2)
      = round2 (applyOp operation
          ((data.filter (fun r => keyOf r groupBy == p.1)).map
            (fun r => metricVal r metric)))
    rw [← hflt, hvs]
  · have htrans : ∀ a b c : AggEntry,
        aggLe a b = true → aggLe b c = true → aggLe a c = true := by
      intro a b c hab hbc
      simp only [aggLe, decide_eq_true_eq] at *
      linarith
    have htotal : ∀ a b : AggEntry, aggLe a b = true ∨ aggLe b a = true := by
      intro a b
      simp only [aggLe, decide_eq_true_eq]
      rcases le_total a.value b.value with h | h
      · right; linarith
      · left; linarith
    have hp := pairwise_insSort aggLe htrans htotal
      (preAgg data groupBy metric operation)
    exact hp.imp (fun hab => by
      simpa [aggLe, sub_nonpos, decide_eq_true_eq] using hab)
  · intro v
    refine filter_insSort aggLe (fun e => e.value == v) _ ?_
    intro x y hx hy
    simp only [beq_iff_eq] at hx hy
    simp [aggLe, hx, hy]

theorem aggregateData_partition_values_order_witness :
    "west" ∈ (aggregateData [[("region", JVal.str "west")]]
      "region" "rev" "sum").map AggEntry.group :=
  ((aggregateData_partition_values_order [[("region", JVal.str "west")]]
      "region" "rev" "sum").2.1 "west").mpr
    ⟨[("region", JVal.str "west")], by simp, rfl⟩

theorem getD_halloc (h : Heap) (v : List Record) (i : ℕ) (hi : i < h.length) :
    (halloc h v).1.getD i [] = h.getD i [] :=
  List.getD_append h [v] [] i hi

theorem getD_hset_ne (h : Heap) (r i : ℕ) (v : List Record) (hne : i ≠ r) :
    (hset h r v).getD i [] = h.getD i [] := by
  simp [hset, List.getD_eq_getElem?_getD, List.getElem?_set_ne (Ne.symm hne)]

/-- C9: no tool invocation mutates the loaded datasets.  Every record
array existing in the heap before a call to any of the five tool
handlers has identical contents afterwards: query-data and export-data
copy the record array before filtering, and the in-place sort of
query-data touches only its fresh copy; aggregate, get-schema and
list-datasets return the heap untouched.  Dataset name, description and
schema live in the store, which every handler only reads. -/
theorem tool_handlers_preserve_datasets
    (h : Heap) (s : Store) (qa : QueryArgs) (ea : ExportArgs) (aa : AggArgs)
    (gname : Option String) (i : ℕ) (hi : i < h.length) :
    ((queryDataH h s qa).1.getD i [] = h.getD i [])
    ∧ ((exportDataH h s ea).1.getD i [] = h.getD i [])
    ∧ ((aggregateH h s aa).1 = h)
    ∧ ((getSchemaH h s gname).1 = h)
    ∧ ((listDatasetsH h s).1 = h) := by
  refine ⟨?_, ?_, ?_, ?_, rfl⟩
  · rcases hds : storeGet s qa.dataset with _ | ds
    · simp [queryDataH, hds]
    · simp only [queryDataH, hds]
      split
      · exact getD_halloc h _ i hi
      · split
        · rw [getD_hset_ne _ _ _ _ (by simp [halloc]; omega)]
          rw [getD_halloc _ _ _ (by simp [halloc]; omega)]
          exact getD_halloc h _ i hi
        · exact getD_halloc h _ i hi
  · rcases hds : storeGet s ea.dataset with _ | ds
    · simp [exportDataH, hds]
    · simp only [exportDataH, hds]
      split
      · exact getD_halloc h _ i hi
      · exact getD_halloc h _ i hi
  · rcases hds : storeGet s aa.dataset with _ | ds <;> simp [aggregateH, hds]
  · rcases hds : storeGet s gname with _ | ds <;> simp [getSchemaH, hds]

theorem tool_handlers_preserve_datasets_witness :
    (queryDataH [[[("x", JVal.num 1)]]] [⟨"d", "demo", [("x", "number")], 0⟩]
        ⟨some "d", none, some ⟨"x", "asc"⟩, none, none⟩).1.getD 0 []
      = ([[[("x", JVal.num 1)]]] : Heap).getD 0 [] :=
  (tool_handlers_preserve_datasets [[[("x", JVal.num 1)]]]
    [⟨"d", "demo", [("x", "number")], 0⟩]
    ⟨some "d", none, some ⟨"x", "asc"⟩, none, none⟩
    ⟨none, none, none⟩ ⟨none, "", "", ""⟩ none 0 (by decide)).1
